import Mathlib

/-!
Verification development for the LyricsIR repository.

The repository has two source files:
* `BoolLyricsIR/BoolLyricsIR.py` — an inverted positional index with boolean
  and phrase search;
* `VectorLyricsIR/VectorLyricsIR.py` — a TF-IDF vector-space ranker, an
  SVD-based latent-semantic ranker, and precision / average-precision
  evaluation.

Python dictionaries are modelled as association lists in insertion order
(`List (κ × ν)`), which mirrors the ordered-dict semantics of CPython that the
code relies on (`Counter` iteration order, `dict.items()` order, stability of
`sorted`).  A bare subscript `d[k]` on a `defaultdict` is modelled as an
effectful operation returning the value together with the possibly-updated
dictionary; `k in d` and `d.get(k, default)` are pure.  `float` arithmetic is
modelled over `ℝ`, with `math.log` as `Real.log` and `math.sqrt` as
`Real.sqrt`; the one place where the code can divide by zero (the latent query
projection) is modelled with an explicit IEEE-style result type.
-/

namespace LyricsIR

/-! ## Tokenizer and ordered-dictionary primitives -/

/-- The stopword list shared by both source files. -/
def stopwords : List String :=
  ["a", "an", "the", "is", "are", "was", "were", "am", "be", "been", "being",
   "and", "or", "but", "if", "then", "this", "that", "these", "those",
   "in", "on", "at", "for", "with", "of", "to", "by", "as", "from"]

/-- `text.lower()` (ASCII range, which covers the corpus and queries). -/
def pyLower (s : String) : String := ⟨s.data.map Char.toLower⟩

/-- A character kept by `re.sub(r"[^a-z0-9\s]", "", text)` after lowering. -/
def keepChar (c : Char) : Bool :=
  (decide ('a' ≤ c) && decide (c ≤ 'z')) ||
  (decide ('0' ≤ c) && decide (c ≤ '9')) || c.isWhitespace

/-- `re.sub(r"[^a-z0-9\s]", "", text)`: drop every character that is not a
lowercase letter, a digit or whitespace. -/
def stripNonAlnum (s : String) : String := ⟨s.data.filter keepChar⟩

/-- Split a character list on runs of whitespace, dropping empty pieces;
the accumulator holds the current in-progress token. -/
def splitWsAux : List Char → List Char → List (List Char)
  | [], cur => if cur.isEmpty then [] else [cur]
  | c :: cs, cur =>
      if c.isWhitespace then
        if cur.isEmpty then splitWsAux cs [] else cur :: splitWsAux cs []
      else splitWsAux cs (cur ++ [c])

/-- `text.split()`: split on whitespace runs, no empty tokens. -/
def pySplit (s : String) : List String := (splitWsAux s.data []).map (⟨·⟩)

/-- `preprocess(text)` from both source files: lowercase, strip characters
outside `[a-z0-9\s]`, split on whitespace, drop stopwords. -/
def preprocess (text : String) : List String :=
  ((pySplit (stripNonAlnum (pyLower text)))).filter (fun t => t ∉ stopwords)

/-- Update the entry of `k` in an insertion-ordered dictionary with `f`,
appending `(k, f init)` when `k` is absent.  This single primitive models
`d[k] += x`, `d[k] = v` and `d[k].append(x)` on (default)dicts. -/
def bump {κ ν : Type _} [DecidableEq κ] (l : List (κ × ν)) (k : κ) (f : ν → ν)
    (init : ν) : List (κ × ν) :=
  match l with
  | [] => [(k, f init)]
  | (k', v) :: rest =>
      if k' = k then (k', f v) :: rest else (k', v) :: bump rest k f init

/-- Dictionary lookup on an insertion-ordered association list. -/
def alookup {κ ν : Type _} [DecidableEq κ] : List (κ × ν) → κ → Option ν
  | [], _ => none
  | (k', v) :: rest, k => if k' = k then some v else alookup rest k

/-- `d.get(k, default)`: the value stored at `k`, or the default. -/
def lookupD {κ ν : Type _} [DecidableEq κ] (l : List (κ × ν)) (k : κ) (d : ν) : ν :=
  (alookup l k).getD d

/-- `k in d`. -/
def hasKey {κ ν : Type _} [DecidableEq κ] (l : List (κ × ν)) (k : κ) : Prop :=
  (alookup l k).isSome

instance {κ ν : Type _} [DecidableEq κ] (l : List (κ × ν)) (k : κ) :
    Decidable (hasKey l k) := by unfold hasKey; infer_instance

/-- The ids (ascending) of the documents, among `cs` enumerated after `n`
prior documents, whose token list contains `t`.  Both index builds are shown
to record exactly these ids for term `t`. -/
def docsContainingAux : Nat → List String → String → List Nat
  | _, [], _ => []
  | n, c :: cs, t =>
      if t ∈ preprocess c then (n + 1) :: docsContainingAux (n + 1) cs t
      else docsContainingAux (n + 1) cs t

/-! ## BoolLyricsIR: inverted positional index, boolean and phrase search

`inverted_index` is `defaultdict(lambda: defaultdict(list))`, mapping a term
to a dict from doc id to the list of 0-based token positions.  A bare
subscript on it (or on one of its inner dicts) inserts an empty entry when
the key is absent; the query functions below therefore thread the index
state and return it alongside their result. -/

namespace BoolIR

/-- Inner dict of `inverted_index`: doc id → positions, in insertion order. -/
abbrev Posting := List (Nat × List Nat)

/-- `inverted_index`: term → postings, in insertion order. -/
abbrev Index := List (String × Posting)

/-- `inverted_index[term]`: defaultdict subscript.  Returns the inner dict
and the updated index (an empty inner dict is appended when absent). -/
def ddSub (idx : Index) (t : String) : Posting × Index :=
  match alookup idx t with
  | some inner => (inner, idx)
  | none => ([], idx ++ [(t, [])])

/-- `post_map[doc_id]` where `post_map = inverted_index.get(word, {})`.
When `word` is present, `post_map` aliases the stored inner defaultdict, so a
subscript on an absent `doc_id` would insert an empty position list into the
index; when `word` is absent, `post_map` is a fresh dict and the insertion is
invisible to the index. -/
def innerSub (idx : Index) (w : String) (d : Nat) : List Nat × Index :=
  match alookup idx w with
  | none => ([], idx)
  | some pm =>
      match alookup pm d with
      | some ps => (ps, idx)
      | none => ([], bump idx w (fun inner => inner ++ [(d, [])]) [])

/-- `inverted_index[token][doc_id].append(pos)` in `build_index`. -/
def addPos (idx : Index) (tok : String) (d : Nat) (p : Nat) : Index :=
  bump idx tok (fun inner => bump inner d (fun ps => ps ++ [p]) []) []

/-- `for pos, token in enumerate(tokens): inverted_index[token][doc_id].append(pos)`. -/
def indexTokens : Index → Nat → Nat → List String → Index
  | idx, _, _, [] => idx
  | idx, d, p, tok :: toks => indexTokens (addPos idx tok d p) d (p + 1) toks

/-- The per-document loop of `build_index`: `doc_id_counter` is incremented
before each document is indexed. -/
def buildAux : Index → Nat → List String → Index
  | idx, _, [] => idx
  | idx, n, c :: cs => buildAux (indexTokens idx (n + 1) 0 (preprocess c)) (n + 1) cs

/-- `build_index`, with the external file loader abstracted to the ordered
list of raw document contents; doc ids are assigned 1, 2, … in that order. -/
def build_index (docs : List String) : Index := buildAux [] 0 docs

/-- `search_term(term)`:
`set(inverted_index[term].keys()) if term in inverted_index else set()`. -/
def search_term (idx : Index) (term : String) : Finset Nat × Index :=
  if hasKey idx term then
    let pr := ddSub idx term
    ((pr.1.map Prod.fst).toFinset, pr.2)
  else (∅, idx)

/-- `set_union` (OR logic). -/
def set_union (a b : Finset Nat) : Finset Nat := a ∪ b

/-- `set_intersection` (AND logic). -/
def set_intersection (a b : Finset Nat) : Finset Nat := a ∩ b

/-- `set_difference` (NOT logic). -/
def set_difference (a b : Finset Nat) : Finset Nat := a \ b

/-- `boolean_search(query)`.  `allDocs` stands for `set(doc_map.keys())`. -/
def boolean_search (idx : Index) (allDocs : Finset Nat) (query : String) :
    Finset Nat × Index :=
  match pySplit (pyLower query) with
  | [t] => search_term idx t
  | [t0, t1] =>
      if t0 = "not" then
        let pr := search_term idx t1
        (set_difference allDocs pr.1, pr.2)
      else (∅, idx)
  | [t0, op, t2] =>
      let pr1 := search_term idx t0
      let pr2 := search_term pr1.2 t2
      if op = "and" then (set_intersection pr1.1 pr2.1, pr2.2)
      else if op = "or" then (set_union pr1.1 pr2.1, pr2.2)
      else (∅, pr2.2)
  | _ => (∅, idx)

/-- The `for offset, word in enumerate(words[1:], 1)` loop of
`phrase_search`: check that each later word has a posting for `d` containing
position `pos + offset`. -/
def checkWords : Index → Nat → Nat → Nat → List String → Bool × Index
  | idx, _, _, _, [] => (true, idx)
  | idx, d, pos, offset, w :: ws =>
      let pm := lookupD idx w []
      if hasKey pm d then
        let pr := innerSub idx w d
        if pos + offset ∈ pr.1 then checkWords pr.2 d pos (offset + 1) ws
        else (false, pr.2)
      else (false, idx)

/-- The `for pos in positions` loop of `phrase_search`: stop at the first
matching start position for the document. -/
def posLoop : Index → List String → Nat → List Nat → Bool × Index
  | idx, _, _, [] => (false, idx)
  | idx, ws, d, pos :: rest =>
      let pr := checkWords idx d pos 1 ws
      if pr.1 then (true, pr.2) else posLoop pr.2 ws d rest

/-- The `for doc_id, positions in first_postings.items()` loop of
`phrase_search`. -/
def docLoop : Index → List String → List (Nat × List Nat) → Finset Nat →
    Finset Nat × Index
  | idx, _, [], acc => (acc, idx)
  | idx, ws, (d, positions) :: rest, acc =>
      let pr := posLoop idx ws d positions
      if pr.1 then docLoop pr.2 ws rest (insert d acc)
      else docLoop pr.2 ws rest acc

/-- `phrase_search(phrase_raw)`. -/
def phrase_search (idx : Index) (phrase_raw : String) : Finset Nat × Index :=
  match preprocess phrase_raw with
  | [] => (∅, idx)
  | w :: ws => docLoop idx ws (lookupD idx w []) ∅

/-- The doc ids having a posting for `t`, in insertion order. -/
def innerDocs (idx : Index) (t : String) : List Nat :=
  (lookupD idx t []).map Prod.fst

/-- All doc ids recorded in the index are at most `n`. -/
def IdsLe (idx : Index) (n : Nat) : Prop :=
  ∀ e ∈ idx, ∀ pe ∈ e.2, pe.1 ≤ n

/-- Well-formedness: every recorded position list is nonempty (the build
only creates a posting entry by appending a position to it). -/
def WFIndex (idx : Index) : Prop := ∀ e ∈ idx, ∀ pe ∈ e.2, ¬pe.2 = []

instance (idx : Index) : Decidable (WFIndex idx) := by
  unfold WFIndex; infer_instance

end BoolIR

/-! ## VectorLyricsIR: TF-IDF vector ranking, LSI ranking, evaluation

`term_doc_freq` is `defaultdict(Counter)`, mapping a term to a `Counter`
from doc id to term frequency.  `float` arithmetic is modelled over `ℝ`
(`math.log` as `Real.log`, `math.sqrt` and `np.linalg.norm` as `Real.sqrt`),
so the development establishes the exact-arithmetic behaviour of the
formulas the code computes. -/

namespace VecIR

/-- `term_doc_freq`: term → (doc id → tf), both in insertion order. -/
abbrev TDF := List (String × List (Nat × Nat))

/-- `Counter(tokens)`: keys in first-occurrence order with multiplicities. -/
def counter (ts : List String) : List (String × Nat) :=
  ts.foldl (fun acc t => bump acc t (fun n => n + 1) 0) []

/-- `idf = math.log((1+N)/(1+df)) + 1`, the smoothed inverse document
frequency used at lines 160, 170, 177, 197 and 217 of the source. -/
noncomputable def idf (N df : Nat) : ℝ :=
  Real.log ((1 + (N : ℝ)) / (1 + (df : ℝ))) + 1

/-- `df = len(term_doc_freq.get(t, {}))`: query-time document frequency. -/
def dfOf (tdf : TDF) (t : String) : Nat := (lookupD tdf t []).length

/-- `term_doc_freq[term][doc_id] = freq` in `build_index`. -/
def setTf (tdf : TDF) (t : String) (d freq : Nat) : TDF :=
  bump tdf t (fun inner => bump inner d (fun _ => freq) 0) []

/-- The per-document indexing step:
`tf = Counter(tokens); for term, freq in tf.items(): term_doc_freq[term][doc_id] = freq`. -/
def indexDocV (tdf : TDF) (d : Nat) (toks : List String) : TDF :=
  (counter toks).foldl (fun td p => setTf td p.1 d p.2) tdf

/-- The document loop of `build_index` with its `doc_id_counter`. -/
def buildTdfAux : TDF → Nat → List String → TDF
  | td, _, [] => td
  | td, n, c :: cs => buildTdfAux (indexDocV td (n + 1) (preprocess c)) (n + 1) cs

/-- `build_index`, restricted to the `term_doc_freq` structure it fills in;
the external file loader is abstracted to the ordered list of raw document
contents, ids assigned 1, 2, … in order. -/
def buildTdf (docs : List String) : TDF := buildTdfAux [] 0 docs

/-- `doc_lengths[d]`, the precomputed vector length of document `d`:
`sqrt(Σ_term (tf(term,d) * idf(term))²)`, skipping terms with `tf = 0`. -/
noncomputable def docLen (N : Nat) (tdf : TDF) (d : Nat) : ℝ :=
  Real.sqrt ((tdf.map (fun e =>
    let tfv : Nat := lookupD e.2 d 0
    if tfv = 0 then (0 : ℝ)
    else ((tfv : ℝ) * idf N e.2.length) ^ 2)).sum)

/-- `term_doc_freq[t]`: defaultdict subscript (inserts an empty `Counter`
when `t` is absent). -/
def ddSubT (tdf : TDF) (t : String) : List (Nat × Nat) × TDF :=
  match alookup tdf t with
  | some inner => (inner, tdf)
  | none => ([], tdf ++ [(t, [])])

/-- `qvec[t] = f * idf` for each `t, f` in `Counter(query_terms)`
(`df = len(term_doc_freq.get(t, {}))`). -/
noncomputable def qvecOf (N : Nat) (tdf : TDF) (q : List String) : List (String × ℝ) :=
  (counter q).map (fun p => (p.1, (p.2 : ℝ) * idf N (dfOf tdf p.1)))

/-- `qnorm = math.sqrt(sum(w*w for w in qvec.values()))`. -/
noncomputable def qnormOf (qvec : List (String × ℝ)) : ℝ :=
  Real.sqrt ((qvec.map (fun p => p.2 * p.2)).sum)

/-- The inner loop of `vsm_search`:
`for d, tfv in term_doc_freq.get(t, {}).items():` followed by
`df = len(term_doc_freq[t]); scores[d] += w * (tfv * idf)`.  The bare
subscript `term_doc_freq[t]` is threaded through the state. -/
noncomputable def vsmInner (N : Nat) (t : String) (w : ℝ) :
    List (Nat × ℝ) × TDF → List (Nat × Nat) → List (Nat × ℝ) × TDF
  | acc, [] => acc
  | acc, dt :: rest =>
      let sub := ddSubT acc.2 t
      vsmInner N t w
        (bump acc.1 dt.1 (fun s => s + w * ((dt.2 : ℝ) * idf N sub.1.length)) 0,
         sub.2) rest

/-- The outer loop of `vsm_search`: `for t, w in qvec.items()`, reading the
postings snapshot `term_doc_freq.get(t, {})` from the current state. -/
noncomputable def vsmLoop (N : Nat) :
    List (Nat × ℝ) × TDF → List (String × ℝ) → List (Nat × ℝ) × TDF
  | acc, [] => acc
  | acc, tw :: rest =>
      vsmLoop N (vsmInner N tw.1 tw.2 acc (lookupD acc.2 tw.1 [])) rest

/-- Stable insertion into a score-descending list: the element being
inserted comes earlier in the original list than everything already in the
target, so it goes before the first element of less-or-equal score. -/
noncomputable def insertDesc (x : Nat × ℝ) : List (Nat × ℝ) → List (Nat × ℝ)
  | [] => [x]
  | y :: ys => if y.2 ≤ x.2 then x :: y :: ys else y :: insertDesc x ys

/-- `sorted(l, key=lambda x: x[1], reverse=True)`: Python's sort is stable,
so elements with equal scores keep their original relative order; this
insertion sort computes the same list. -/
noncomputable def sortDesc : List (Nat × ℝ) → List (Nat × ℝ)
  | [] => []
  | x :: xs => insertDesc x (sortDesc xs)

/-- `vsm_search(query_terms)`.  `N = len(doc_map)` and `dlen` (standing for
the `doc_lengths` dict, total here; the code only reads `doc_lengths[d]` for
scored documents, which are always indexed) are passed as state; the
returned `TDF` is the state of `term_doc_freq` after the query. -/
noncomputable def vsm_search (N : Nat) (tdf : TDF) (dlen : Nat → ℝ)
    (q : List String) : List (Nat × ℝ) × TDF :=
  let qvec := qvecOf N tdf q
  let qnorm := qnormOf qvec
  let pr := vsmLoop N ([], tdf) qvec
  let ranked := pr.1.map (fun ds =>
      (ds.1, if qnorm ≠ 0 ∧ dlen ds.1 ≠ 0 then ds.2 / (qnorm * dlen ds.1) else ds.2))
  (sortDesc ranked, pr.2)

/-- The loop of `average_precision`: `i` is the 1-based rank, `h` the hits
so far, `t` the accumulated total. -/
noncomputable def apLoop (rel : Finset Nat) :
    List (Nat × ℝ) → Nat → Nat → ℝ → Nat × ℝ
  | [], _, h, t => (h, t)
  | p :: ps, i, h, t =>
      if p.1 ∈ rel then apLoop rel ps (i + 1) (h + 1) (t + ((h + 1 : Nat) : ℝ) / (i : ℝ))
      else apLoop rel ps (i + 1) h t

/-- `average_precision(ranked, relevant_set)`. -/
noncomputable def average_precision (ranked : List (Nat × ℝ))
    (rel : Finset Nat) : ℝ :=
  if rel = ∅ then 0
  else (apLoop rel ranked 1 0 0).2 / (rel.card : ℝ)

/-- Number of relevant documents among the first `i` ranks (`hits_up_to_i`
in the specification's formula). -/
def hitsUpTo (ranked : List (Nat × ℝ)) (rel : Finset Nat) (i : Nat) : Nat :=
  ((ranked.take i).filter (fun p => decide (p.1 ∈ rel))).length

/-- The specification's formula, written as stated:
`(1/|relevant|) * Σ_{rank i where doc_i ∈ relevant} (hits_up_to_i / i)` over
the full ranked list with 1-based ranks, and `0.0` for an empty relevant
set. -/
noncomputable def apSpecFormula (ranked : List (Nat × ℝ)) (rel : Finset Nat) : ℝ :=
  if rel = ∅ then 0
  else (1 / (rel.card : ℝ)) *
    ((List.enumFrom 1 ranked).map (fun ip =>
      if ip.2.1 ∈ rel then (hitsUpTo ranked rel ip.1 : ℝ) / (ip.1 : ℝ) else 0)).sum

/-- The state `lsi_search` reads: `len(doc_map)`, `term_doc_freq`,
`term_index_map`, the truncated factors `U_k` (terms × k), `s_k`,
`doc_latent = diag(s_k) @ Vt_k` (k × docs) and `doc_index_map`. -/
structure LsiState where
  N : Nat
  tdf : TDF
  termIndexMap : List (String × Nat)
  vocabSize : Nat
  kdim : Nat
  Uk : Nat → Nat → ℝ
  sk : Nat → ℝ
  docLatent : Nat → Nat → ℝ
  docIndexMap : List (Nat × Nat)

/-- The raw weighted query vector of `lsi_search`:
`qvec = np.zeros(len(lsi_vocab))`, then `qvec[i] = f * idf` for each query
term present in `term_index_map`. -/
noncomputable def lsiQvec (st : LsiState) (q : List String) : Nat → ℝ :=
  (counter q).foldl (fun qv tf =>
    match alookup st.termIndexMap tf.1 with
    | some i => fun i' => if i' = i then (tf.2 : ℝ) * idf st.N (dfOf st.tdf tf.1) else qv i'
    | none => qv) (fun _ => 0)

/-- IEEE-754-style result of a numpy float division: dividing a nonzero
numerator by zero yields an infinity and `0.0/0.0` yields NaN (numpy emits a
warning but no exception and does not substitute zero). -/
inductive NpFloat where
  | fin : ℝ → NpFloat
  | posInf : NpFloat
  | negInf : NpFloat
  | nan : NpFloat

/-- Elementwise numpy float division. -/
noncomputable def npDiv (a b : ℝ) : NpFloat :=
  if b = 0 then (if a = 0 then .nan else if 0 < a then .posInf else .negInf)
  else .fin (a / b)

/-- Component `j` of `q_latent = (U_k.T @ qvec) / s_k` (line 220), with
numpy division semantics. -/
noncomputable def qLatentNp (st : LsiState) (qv : Nat → ℝ) (j : Nat) : NpFloat :=
  npDiv (∑ i ∈ Finset.range st.vocabSize, st.Uk i j * qv i) (st.sk j)

/-- Component `j` of `q_latent` under real arithmetic; it agrees with the
numpy computation whenever `s_k j ≠ 0`. -/
noncomputable def qLatentR (st : LsiState) (qv : Nat → ℝ) (j : Nat) : ℝ :=
  (∑ i ∈ Finset.range st.vocabSize, st.Uk i j * qv i) / st.sk j

/-- `lsi_search(query_terms)` under real arithmetic (faithful to the numpy
code whenever every retained singular value is nonzero, so that `q_latent`
is finite): scores are filled in `doc_index_map` order and sorted stably by
score descending. -/
noncomputable def lsi_search (st : LsiState) (q : List String) : List (Nat × ℝ) :=
  let qv := lsiQvec st q
  let ql := fun j => qLatentR st qv j
  let qnorm := Real.sqrt (∑ j ∈ Finset.range st.kdim, ql j ^ 2)
  let scores := st.docIndexMap.map (fun dj =>
    let dn := Real.sqrt (∑ j ∈ Finset.range st.kdim, st.docLatent j dj.2 ^ 2)
    (dj.1,
      if qnorm ≠ 0 ∧ dn ≠ 0 then
        (∑ j ∈ Finset.range st.kdim, ql j * st.docLatent j dj.2) / (qnorm * dn)
      else 0))
  sortDesc scores

/-- Score-descending order on ranked pairs. -/
def scoreGe (a b : Nat × ℝ) : Prop := b.2 ≤ a.2

/-- Ascending-id tie-break: any two entries with equal scores appear with
the smaller doc id first. -/
def tieLt (a b : Nat × ℝ) : Prop := a.2 = b.2 → a.1 < b.1

/-- The doc ids having an entry for `t` in `term_doc_freq`. -/
def innerDocsV (tdf : TDF) (t : String) : List Nat :=
  (lookupD tdf t []).map Prod.fst

/-- All doc ids recorded in `term_doc_freq` are at most `n`. -/
def IdsLeV (td : TDF) (n : Nat) : Prop :=
  ∀ e ∈ td, ∀ pe ∈ e.2, pe.1 ≤ n

/-- The three-document corpus of the specification's worked example. -/
def loveDocs : List String := ["love love song", "love is blind", "war and peace"]

/-- The vector ranking of the query `"love"` over `loveDocs`, with all state
(`N`, `term_doc_freq`, `doc_lengths`) produced by the build. -/
noncomputable def loveVsm : List (Nat × ℝ) :=
  (vsm_search loveDocs.length (buildTdf loveDocs)
    (docLen loveDocs.length (buildTdf loveDocs)) (preprocess "love")).1

/-- Corpus `D1 = "x"`, `D2 = "y"`: with query `"y x"` both documents get
exactly equal cosine scores. -/
def tieDocs : List String := ["x", "y"]

/-- The vector ranking of the query `"y x"` over `tieDocs`. -/
noncomputable def tieVsm : List (Nat × ℝ) :=
  (vsm_search tieDocs.length (buildTdf tieDocs)
    (docLen tieDocs.length (buildTdf tieDocs)) (preprocess "y x")).1

/-- A latent-model state whose second retained singular value is zero, as
arises from the SVD of a rank-deficient weight matrix (for example a corpus
with two identical documents: `k = min(100, len(s))` keeps the zero). -/
noncomputable def lsiZeroSV : LsiState where
  N := 2
  tdf := []
  termIndexMap := []
  vocabSize := 2
  kdim := 2
  Uk := fun i j => if i = j then 1 else 0
  sk := fun j => if j = 0 then 1 else 0
  docLatent := fun _ _ => 0
  docIndexMap := [(1, 0), (2, 1)]

/-- A small latent-model state with all retained singular values nonzero and
`doc_index_map` listing doc ids in ascending order, as the build produces. -/
noncomputable def lsiTiny : LsiState where
  N := 1
  tdf := []
  termIndexMap := []
  vocabSize := 1
  kdim := 1
  Uk := fun _ _ => 1
  sk := fun _ => 1
  docLatent := fun _ _ => 1
  docIndexMap := [(1, 0), (2, 1)]

end VecIR

/-- A small well-formed inverted index: one term, one document, one position. -/
def wfIdx : BoolIR.Index := [("love", [(1, [0])])]

/-! ## Theorems -/

/-! ### Generic ordered-dictionary lemmas -/

theorem alookup_bump {κ ν : Type _} [DecidableEq κ] (l : List (κ × ν)) (k k' : κ)
    (f : ν → ν) (init : ν) :
    alookup (bump l k f init) k' =
      if k' = k then some (f (lookupD l k init)) else alookup l k' := by
  induction l with
  | nil =>
      by_cases h : k' = k
      · simp [bump, lookupD, alookup, h]
      · simp [bump, lookupD, alookup, h, Ne.symm h]
  | cons hd tl ih =>
      obtain ⟨a, v⟩ := hd
      by_cases hak : a = k
      · subst hak
        by_cases h : k' = a
        · simp [bump, lookupD, alookup, h]
        · simp [bump, lookupD, alookup, h, Ne.symm h]
      · by_cases h : k' = a
        · subst h
          simp [bump, alookup, hak]
        · simp [bump, alookup, hak, h, Ne.symm h, ih, lookupD]

theorem keys_bump {κ ν : Type _} [DecidableEq κ] (l : List (κ × ν)) (k : κ)
    (f : ν → ν) (init : ν) :
    (bump l k f init).map Prod.fst =
      if k ∈ l.map Prod.fst then l.map Prod.fst else l.map Prod.fst ++ [k] := by
  induction l with
  | nil => simp [bump]
  | cons hd tl ih =>
      obtain ⟨a, v⟩ := hd
      by_cases hak : a = k
      · subst hak; simp [bump]
      · by_cases hk : k ∈ tl.map Prod.fst <;>
          simp [bump, hak, Ne.symm hak, ih, hk]

theorem mem_bump_of {κ ν : Type _} [DecidableEq κ] (l : List (κ × ν)) (k : κ)
    (f : ν → ν) (init : ν) (P : κ × ν → Prop)
    (hl : ∀ x ∈ l, P x) (hnew : P (k, f (lookupD l k init))) :
    ∀ x ∈ bump l k f init, P x := by
  induction l with
  | nil =>
      intro x hx
      cases hx with
      | head => simpa [lookupD, alookup] using hnew
      | tail _ h => cases h
  | cons hd tl ih =>
      obtain ⟨a, v⟩ := hd
      intro x hx
      by_cases hak : a = k
      · subst hak
        rw [show bump ((a, v) :: tl) a f init = (a, f v) :: tl from by
          simp [bump]] at hx
        cases hx with
        | head => simpa [lookupD, alookup] using hnew
        | tail _ h => exact hl x (List.mem_cons_of_mem _ h)
      · rw [show bump ((a, v) :: tl) k f init = (a, v) :: bump tl k f init from by
          simp [bump, hak]] at hx
        have hnew' : P (k, f (lookupD tl k init)) := by
          have : lookupD ((a, v) :: tl) k init = lookupD tl k init := by
            simp [lookupD, alookup, hak]
          rwa [this] at hnew
        cases hx with
        | head => exact hl _ (List.mem_cons_self _ _)
        | tail _ h =>
            exact ih (fun y hy => hl y (List.mem_cons_of_mem _ hy)) hnew' _ h

theorem lookupD_nil_of_not_hasKey {κ ν : Type _} [DecidableEq κ]
    {l : List (κ × List ν)} {k : κ} (h : ¬hasKey l k) :
    lookupD l k [] = [] := by
  unfold hasKey at h
  unfold lookupD
  cases hl : alookup l k with
  | none => simp
  | some inner => rw [hl] at h; simp at h

theorem alookup_mem {κ ν : Type _} [DecidableEq κ] :
    ∀ (l : List (κ × ν)) (k : κ) (v : ν), alookup l k = some v → (k, v) ∈ l := by
  intro l
  induction l with
  | nil => intro k v h; simp [alookup] at h
  | cons hd tl ih =>
      intro k v h
      obtain ⟨a, w⟩ := hd
      by_cases hak : a = k
      · subst hak
        simp [alookup] at h
        subst h; exact List.mem_cons_self _ _
      · simp only [alookup, if_neg hak] at h
        exact List.mem_cons_of_mem _ (ih k v h)

/-! ### BoolLyricsIR lemmas: query-path state preservation and build
correctness -/

namespace BoolIR

theorem ddSub_of_hasKey {idx : Index} {t : String} (h : hasKey idx t) :
    ddSub idx t = (lookupD idx t [], idx) := by
  unfold hasKey at h
  unfold ddSub lookupD
  cases hl : alookup idx t with
  | none => rw [hl] at h; simp at h
  | some inner => simp

theorem search_term_state (idx : Index) (t : String) :
    (search_term idx t).2 = idx := by
  unfold search_term
  by_cases h : hasKey idx t
  · rw [if_pos h, ddSub_of_hasKey h]
  · rw [if_neg h]

theorem boolean_search_state (idx : Index) (allDocs : Finset Nat) (q : String) :
    (boolean_search idx allDocs q).2 = idx := by
  unfold boolean_search
  cases hts : pySplit (pyLower q) with
  | nil => rfl
  | cons t0 rest =>
    cases rest with
    | nil => exact search_term_state idx t0
    | cons t1 rest2 =>
      cases rest2 with
      | nil =>
          by_cases h : t0 = "not"
          · simp only [h, if_pos rfl]
            exact search_term_state idx t1
          · simp only [if_neg h]
      | cons t2 rest3 =>
        cases rest3 with
        | nil =>
            have h1 := search_term_state idx t0
            have h2 := search_term_state (search_term idx t0).2 t2
            by_cases hand : t1 = "and"
            · simp [hand, h2, h1, search_term_state]
            · by_cases hor : t1 = "or"
              · simp [hand, hor, h2, h1, search_term_state]
              · simp [hand, hor, h2, h1, search_term_state]
        | cons _ _ => rfl

theorem innerSub_of_hasKey {idx : Index} {w : String} {d : Nat}
    (h : hasKey (lookupD idx w []) d) :
    innerSub idx w d = (lookupD (lookupD idx w []) d [], idx) := by
  unfold hasKey at h
  unfold innerSub lookupD
  cases hw : alookup idx w with
  | none => rw [lookupD, hw] at h; simp [alookup] at h
  | some pm =>
      rw [lookupD, hw] at h
      simp only [Option.getD_some] at h
      cases hd : alookup pm d with
      | none => rw [hd] at h; simp at h
      | some ps => simp [hd]

theorem checkWords_state (ws : List String) :
    ∀ (idx : Index) (d pos offset : Nat),
      (checkWords idx d pos offset ws).2 = idx := by
  induction ws with
  | nil => intro idx d pos offset; rfl
  | cons w ws ih =>
      intro idx d pos offset
      unfold checkWords
      by_cases h : hasKey (lookupD idx w []) d
      · rw [if_pos h, innerSub_of_hasKey h]
        by_cases hmem : pos + offset ∈ lookupD (lookupD idx w []) d []
        · rw [if_pos hmem]; exact ih idx d pos (offset + 1)
        · rw [if_neg hmem]
      · rw [if_neg h]

theorem posLoop_state (ps : List Nat) :
    ∀ (idx : Index) (ws : List String) (d : Nat), (posLoop idx ws d ps).2 = idx := by
  induction ps with
  | nil => intro idx ws d; rfl
  | cons p rest ih =>
      intro idx ws d
      unfold posLoop
      have hc := checkWords_state ws idx d p 1
      by_cases h : (checkWords idx d p 1 ws).1
      · rw [if_pos h]; exact hc
      · rw [if_neg h, hc]; exact ih idx ws d

theorem docLoop_state (postings : List (Nat × List Nat)) :
    ∀ (idx : Index) (ws : List String) (acc : Finset Nat),
      (docLoop idx ws postings acc).2 = idx := by
  induction postings with
  | nil => intro idx ws acc; rfl
  | cons pe rest ih =>
      intro idx ws acc
      obtain ⟨d, positions⟩ := pe
      unfold docLoop
      have hp := posLoop_state positions idx ws d
      by_cases h : (posLoop idx ws d positions).1
      · rw [if_pos h, hp]; exact ih idx ws (insert d acc)
      · rw [if_neg h, hp]; exact ih idx ws acc

theorem phrase_search_state (idx : Index) (p : String) :
    (phrase_search idx p).2 = idx := by
  unfold phrase_search
  cases preprocess p with
  | nil => rfl
  | cons w ws => exact docLoop_state _ idx ws ∅

theorem lookupD_addPos (idx : Index) (tok t : String) (d p : Nat) :
    lookupD (addPos idx tok d p) t [] =
      if t = tok then bump (lookupD idx tok []) d (fun ps => ps ++ [p]) []
      else lookupD idx t [] := by
  unfold addPos lookupD
  rw [alookup_bump]
  by_cases ht : t = tok <;> simp [ht, lookupD]

theorem innerDocs_addPos (idx : Index) (tok t : String) (d p : Nat) :
    innerDocs (addPos idx tok d p) t =
      if t = tok ∧ d ∉ innerDocs idx t then innerDocs idx t ++ [d]
      else innerDocs idx t := by
  unfold innerDocs
  rw [lookupD_addPos]
  by_cases ht : t = tok
  · subst ht
    rw [if_pos rfl, keys_bump]
    by_cases hd : d ∈ (lookupD idx t []).map Prod.fst
    · rw [if_pos hd, if_neg (by simp [hd])]
    · rw [if_neg hd, if_pos ⟨rfl, hd⟩]
  · rw [if_neg ht, if_neg (by simp [ht])]

theorem innerDocs_indexTokens_mem (toks : List String) :
    ∀ (idx : Index) (d p : Nat) (t : String), d ∈ innerDocs idx t →
      innerDocs (indexTokens idx d p toks) t = innerDocs idx t := by
  induction toks with
  | nil => intro idx d p t _; rfl
  | cons tok toks ih =>
      intro idx d p t hd
      unfold indexTokens
      have h1 : innerDocs (addPos idx tok d p) t = innerDocs idx t := by
        rw [innerDocs_addPos]
        simp [hd]
      rw [ih _ d _ t (by rw [h1]; exact hd), h1]

theorem innerDocs_indexTokens (toks : List String) :
    ∀ (idx : Index) (d p : Nat) (t : String), d ∉ innerDocs idx t →
      innerDocs (indexTokens idx d p toks) t =
        if t ∈ toks then innerDocs idx t ++ [d] else innerDocs idx t := by
  induction toks with
  | nil => intro idx d p t _; simp [indexTokens]
  | cons tok toks ih =>
      intro idx d p t hd
      unfold indexTokens
      by_cases ht : t = tok
      · subst ht
        have h1 : innerDocs (addPos idx t d p) t = innerDocs idx t ++ [d] := by
          rw [innerDocs_addPos]; simp [hd]
        have h2 : d ∈ innerDocs (addPos idx t d p) t := by rw [h1]; simp
        rw [innerDocs_indexTokens_mem toks _ d _ t h2, h1]
        simp
      · have h1 : innerDocs (addPos idx tok d p) t = innerDocs idx t := by
          rw [innerDocs_addPos]; simp [ht]
        rw [ih _ d _ t (by rw [h1]; exact hd), h1]
        simp [List.mem_cons, ht]

theorem IdsLe_mono {idx : Index} {m n : Nat} (h : IdsLe idx m) (hmn : m ≤ n) :
    IdsLe idx n :=
  fun e he pe hpe => le_trans (h e he pe hpe) hmn

theorem mem_lookupD_entry {idx : Index} {t : String} {pe : Nat × List Nat}
    (h : pe ∈ lookupD idx t []) : (t, lookupD idx t []) ∈ idx := by
  unfold lookupD at h ⊢
  cases hl : alookup idx t with
  | none => rw [hl] at h; simp at h
  | some inner => simpa using alookup_mem _ _ _ hl

theorem IdsLe_addPos {idx : Index} {n : Nat} (h : IdsLe idx n) {tok : String}
    {d p : Nat} (hd : d ≤ n) : IdsLe (addPos idx tok d p) n := by
  intro e he pe hpe
  refine mem_bump_of idx tok _ []
    (fun e => ∀ pe ∈ e.2, pe.1 ≤ n) h ?_ e he pe hpe
  intro pe2 hpe2
  refine mem_bump_of (lookupD idx tok []) d _ []
    (fun pe => pe.1 ≤ n) ?_ hd pe2 hpe2
  intro x hx
  exact h _ (mem_lookupD_entry hx) x hx

theorem IdsLe_indexTokens (toks : List String) :
    ∀ (idx : Index) (n d p : Nat), IdsLe idx n → d ≤ n →
      IdsLe (indexTokens idx d p toks) n := by
  induction toks with
  | nil => intro idx n d p h _; exact h
  | cons tok toks ih =>
      intro idx n d p h hd
      exact ih _ n d _ (IdsLe_addPos h hd) hd

theorem not_mem_innerDocs_of_IdsLe {idx : Index} {n : Nat} (h : IdsLe idx n)
    (t : String) {d : Nat} (hd : n < d) : d ∉ innerDocs idx t := by
  intro hmem
  unfold innerDocs at hmem
  rw [List.mem_map] at hmem
  obtain ⟨pe, hpe, hfst⟩ := hmem
  have := h _ (mem_lookupD_entry hpe) pe hpe
  omega

theorem innerDocs_buildAux (cs : List String) :
    ∀ (idx : Index) (n : Nat) (t : String), IdsLe idx n →
      innerDocs (buildAux idx n cs) t =
        innerDocs idx t ++ docsContainingAux n cs t := by
  induction cs with
  | nil => intro idx n t _; simp [buildAux, docsContainingAux]
  | cons c cs ih =>
      intro idx n t h
      unfold buildAux docsContainingAux
      have hd : (n + 1) ∉ innerDocs idx t :=
        not_mem_innerDocs_of_IdsLe h t (by omega)
      have h1 := innerDocs_indexTokens (preprocess c) idx (n + 1) 0 t hd
      have h2 : IdsLe (indexTokens idx (n + 1) 0 (preprocess c)) (n + 1) :=
        IdsLe_indexTokens _ _ _ _ _ (IdsLe_mono h (by omega)) (le_refl _)
      rw [ih _ _ t h2, h1]
      by_cases hc : t ∈ preprocess c <;> simp [hc]

theorem IdsLe_nil : IdsLe [] 0 := by intro e he; cases he

theorem innerDocs_build (docs : List String) (t : String) :
    innerDocs (build_index docs) t = docsContainingAux 0 docs t := by
  have h := innerDocs_buildAux docs [] 0 t IdsLe_nil
  simpa [build_index, innerDocs, lookupD, alookup] using h

theorem docsContainingAux_gt (cs : List String) :
    ∀ (n : Nat) (t : String) (m : Nat), m ∈ docsContainingAux n cs t → n < m := by
  induction cs with
  | nil => intro n t m h; simp [docsContainingAux] at h
  | cons c cs ih =>
      intro n t m h
      unfold docsContainingAux at h
      by_cases hc : t ∈ preprocess c
      · rw [if_pos hc] at h
        cases h with
        | head => omega
        | tail _ h2 => have := ih (n + 1) t m h2; omega
      · rw [if_neg hc] at h
        have := ih (n + 1) t m h; omega

theorem docsContainingAux_nodup (cs : List String) :
    ∀ (n : Nat) (t : String), (docsContainingAux n cs t).Nodup := by
  induction cs with
  | nil => intro n t; simp [docsContainingAux]
  | cons c cs ih =>
      intro n t
      unfold docsContainingAux
      by_cases hc : t ∈ preprocess c
      · rw [if_pos hc]
        refine List.nodup_cons.mpr ⟨?_, ih (n + 1) t⟩
        intro hmem
        have := docsContainingAux_gt cs (n + 1) t (n + 1) hmem
        omega
      · rw [if_neg hc]; exact ih (n + 1) t

theorem docsContainingAux_length (cs : List String) :
    ∀ (n : Nat) (t : String),
      (docsContainingAux n cs t).length =
        (cs.filter (fun c => decide (t ∈ preprocess c))).length := by
  induction cs with
  | nil => intro n t; simp [docsContainingAux]
  | cons c cs ih =>
      intro n t
      unfold docsContainingAux
      by_cases hc : t ∈ preprocess c <;>
        simp [hc, List.filter, ih (n + 1) t]

theorem WF_addPos {idx : Index} (h : WFIndex idx) (tok : String) (d p : Nat) :
    WFIndex (addPos idx tok d p) := by
  intro e he pe hpe
  refine mem_bump_of idx tok _ []
    (fun e => ∀ pe ∈ e.2, ¬pe.2 = []) h ?_ e he pe hpe
  intro pe2 hpe2
  refine mem_bump_of (lookupD idx tok []) d _ []
    (fun pe => ¬pe.2 = []) ?_ (by simp) pe2 hpe2
  intro x hx
  exact h _ (mem_lookupD_entry hx) x hx

theorem WF_indexTokens (toks : List String) :
    ∀ (idx : Index) (d p : Nat), WFIndex idx →
      WFIndex (indexTokens idx d p toks) := by
  induction toks with
  | nil => intro idx d p h; exact h
  | cons tok toks ih => intro idx d p h; exact ih _ d _ (WF_addPos h tok d p)

theorem WF_buildAux (cs : List String) :
    ∀ (idx : Index) (n : Nat), WFIndex idx → WFIndex (buildAux idx n cs) := by
  induction cs with
  | nil => intro idx n h; exact h
  | cons c cs ih =>
      intro idx n h
      exact ih _ (n + 1) (WF_indexTokens _ _ _ _ h)

theorem WF_build (docs : List String) : WFIndex (build_index docs) :=
  WF_buildAux docs [] 0 (fun e he => by cases he)

theorem docLoop_single (postings : List (Nat × List Nat)) :
    ∀ (idx : Index) (acc : Finset Nat),
      (docLoop idx [] postings acc).1 =
        acc ∪ ((postings.filter (fun pe => !pe.2.isEmpty)).map Prod.fst).toFinset := by
  induction postings with
  | nil => intro idx acc; simp [docLoop]
  | cons pe rest ih =>
      intro idx acc
      obtain ⟨d, positions⟩ := pe
      cases positions with
      | nil =>
          show (docLoop idx [] ((d, []) :: rest) acc).1 = _
          rw [show docLoop idx [] ((d, []) :: rest) acc =
              docLoop idx [] rest acc from by
            simp [docLoop, posLoop]]
          rw [ih]
          simp [List.filter_cons]
      | cons p ps =>
          rw [show docLoop idx [] ((d, p :: ps) :: rest) acc =
              docLoop idx [] rest (insert d acc) from by
            simp [docLoop, posLoop, checkWords]]
          rw [ih]
          rw [List.filter_cons]
          simp only [List.isEmpty_cons, Bool.not_false, if_true]
          rw [List.map_cons, List.toFinset_cons, Finset.union_insert,
            Finset.insert_union]

theorem phrase_search_single {idx : Index} (hwf : WFIndex idx) {p : String}
    {w : String} (hp : preprocess p = [w]) :
    (phrase_search idx p).1 = (search_term idx w).1 := by
  unfold phrase_search
  rw [hp]
  rw [docLoop_single (lookupD idx w []) idx ∅]
  have hfil : (lookupD idx w []).filter (fun pe => !pe.2.isEmpty) =
      lookupD idx w [] := by
    apply List.filter_eq_self.mpr
    intro pe hpe
    have := hwf _ (mem_lookupD_entry hpe) pe hpe
    simpa [List.isEmpty_iff] using this
  rw [hfil]
  unfold search_term
  by_cases h : hasKey idx w
  · rw [if_pos h, ddSub_of_hasKey h]
    simp
  · rw [if_neg h]
    rw [show lookupD idx w [] = [] from by
      unfold hasKey at h
      unfold lookupD
      cases hl : alookup idx w with
      | none => simp
      | some inner => rw [hl] at h; simp at h]
    simp

theorem phrase_search_empty {idx : Index} {p : String}
    (hp : preprocess p = []) : (phrase_search idx p).1 = ∅ := by
  unfold phrase_search
  rw [hp]

theorem search_term_card (docs : List String) (t : String) :
    ((search_term (build_index docs) t).1).card =
      (docs.filter (fun c => decide (t ∈ preprocess c))).length := by
  unfold search_term
  by_cases h : hasKey (build_index docs) t
  · rw [if_pos h, ddSub_of_hasKey h]
    show ((lookupD (build_index docs) t []).map Prod.fst).toFinset.card = _
    rw [show (lookupD (build_index docs) t []).map Prod.fst =
        innerDocs (build_index docs) t from rfl]
    rw [innerDocs_build]
    rw [List.toFinset_card_of_nodup (docsContainingAux_nodup docs 0 t)]
    exact docsContainingAux_length docs 0 t
  · rw [if_neg h]
    have hnil : lookupD (build_index docs) t [] = [] :=
      lookupD_nil_of_not_hasKey h
    have hinner : innerDocs (build_index docs) t = [] := by
      unfold innerDocs; rw [hnil]; rfl
    rw [innerDocs_build] at hinner
    rw [← docsContainingAux_length docs 0 t, hinner]
    simp

theorem boolean_search_single (idx : Index) (allDocs : Finset Nat)
    (q t : String) (h : pySplit (pyLower q) = [t]) :
    (boolean_search idx allDocs q).1 = (search_term idx t).1 := by
  unfold boolean_search
  rw [h]

theorem boolean_search_not (idx : Index) (allDocs : Finset Nat)
    (q t : String) (h : pySplit (pyLower q) = ["not", t]) :
    (boolean_search idx allDocs q).1 =
      set_difference allDocs (search_term idx t).1 := by
  unfold boolean_search
  rw [h]
  simp

theorem boolean_search_and (idx : Index) (allDocs : Finset Nat)
    (q t1 t2 : String) (h : pySplit (pyLower q) = [t1, "and", t2]) :
    (boolean_search idx allDocs q).1 =
      set_intersection (search_term idx t1).1 (search_term idx t2).1 := by
  unfold boolean_search
  rw [h]
  simp [search_term_state]

theorem boolean_search_or (idx : Index) (allDocs : Finset Nat)
    (q t1 t2 : String) (h : pySplit (pyLower q) = [t1, "or", t2]) :
    (boolean_search idx allDocs q).1 =
      set_union (search_term idx t1).1 (search_term idx t2).1 := by
  unfold boolean_search
  rw [h]
  simp [search_term_state]

theorem boolean_search_default (idx : Index) (allDocs : Finset Nat) (q : String)
    (h1 : ∀ t, ¬pySplit (pyLower q) = [t])
    (h2 : ∀ t, ¬pySplit (pyLower q) = ["not", t])
    (h3 : ∀ t1 t2, ¬pySplit (pyLower q) = [t1, "and", t2])
    (h4 : ∀ t1 t2, ¬pySplit (pyLower q) = [t1, "or", t2]) :
    (boolean_search idx allDocs q).1 = ∅ := by
  unfold boolean_search
  cases hts : pySplit (pyLower q) with
  | nil => rfl
  | cons t0 rest =>
    cases rest with
    | nil => exact absurd hts (h1 t0)
    | cons t1 rest2 =>
      cases rest2 with
      | nil =>
          by_cases hnot : t0 = "not"
          · subst hnot; exact absurd hts (h2 t1)
          · simp only [if_neg hnot]
      | cons t2 rest3 =>
        cases rest3 with
        | nil =>
            by_cases hand : t1 = "and"
            · subst hand; exact absurd hts (h3 t0 t2)
            · by_cases hor : t1 = "or"
              · subst hor; exact absurd hts (h4 t0 t2)
              · simp only [if_neg hand, if_neg hor]
        | cons _ _ => rfl

end BoolIR

/-! ### VectorLyricsIR lemmas: state preservation, sorting, membership,
average precision, build correctness -/

namespace VecIR

theorem ddSubT_of_hasKey {tdf : TDF} {t : String} (h : hasKey tdf t) :
    ddSubT tdf t = (lookupD tdf t [], tdf) := by
  unfold hasKey at h
  unfold ddSubT lookupD
  cases hl : alookup tdf t with
  | none => rw [hl] at h; simp at h
  | some inner => simp

theorem vsmInner_state (N : Nat) (t : String) (w : ℝ)
    (postings : List (Nat × Nat)) :
    ∀ acc : List (Nat × ℝ) × TDF, hasKey acc.2 t →
      (vsmInner N t w acc postings).2 = acc.2 := by
  induction postings with
  | nil => intro acc _; rfl
  | cons dt rest ih =>
      intro acc h
      show (vsmInner N t w
        (bump acc.1 dt.1 _ 0, (ddSubT acc.2 t).2) rest).2 = acc.2
      rw [ddSubT_of_hasKey h]
      exact ih (bump acc.1 dt.1 _ 0, acc.2) h

theorem vsmLoop_state (N : Nat) (qvec : List (String × ℝ)) :
    ∀ acc : List (Nat × ℝ) × TDF, (vsmLoop N acc qvec).2 = acc.2 := by
  induction qvec with
  | nil => intro acc; rfl
  | cons tw rest ih =>
      intro acc
      show (vsmLoop N (vsmInner N tw.1 tw.2 acc (lookupD acc.2 tw.1 [])) rest).2 = acc.2
      rw [ih]
      by_cases h : hasKey acc.2 tw.1
      · exact vsmInner_state N tw.1 tw.2 _ acc h
      · rw [lookupD_nil_of_not_hasKey h]; rfl

theorem vsm_search_state (N : Nat) (tdf : TDF) (dlen : Nat → ℝ)
    (q : List String) : (vsm_search N tdf dlen q).2 = tdf := by
  unfold vsm_search
  exact vsmLoop_state N _ ([], tdf)

theorem mem_keys_bump {κ ν : Type _} [DecidableEq κ] (l : List (κ × ν))
    (k k' : κ) (f : ν → ν) (init : ν) :
    k' ∈ (bump l k f init).map Prod.fst ↔ k' ∈ l.map Prod.fst ∨ k' = k := by
  rw [keys_bump]
  by_cases h : k ∈ l.map Prod.fst
  · rw [if_pos h]
    constructor
    · exact Or.inl
    · rintro (hk | rfl)
      · exact hk
      · exact h
  · rw [if_neg h]
    simp [List.mem_append]

theorem mem_keys_vsmInner (N : Nat) (t : String) (w : ℝ)
    (postings : List (Nat × Nat)) :
    ∀ (acc : List (Nat × ℝ) × TDF) (d : Nat),
      d ∈ (vsmInner N t w acc postings).1.map Prod.fst ↔
        d ∈ acc.1.map Prod.fst ∨ d ∈ postings.map Prod.fst := by
  induction postings with
  | nil => intro acc d; simp [vsmInner]
  | cons dt rest ih =>
      intro acc d
      show d ∈ (vsmInner N t w (bump acc.1 dt.1 _ 0, (ddSubT acc.2 t).2) rest).1.map Prod.fst ↔ _
      rw [ih]
      rw [mem_keys_bump]
      simp only [List.map_cons, List.mem_cons]
      tauto

theorem mem_keys_vsmLoop (N : Nat) (qvec : List (String × ℝ)) :
    ∀ (acc : List (Nat × ℝ) × TDF) (d : Nat),
      d ∈ (vsmLoop N acc qvec).1.map Prod.fst ↔
        d ∈ acc.1.map Prod.fst ∨
          ∃ tw ∈ qvec, d ∈ (lookupD acc.2 tw.1 []).map Prod.fst := by
  induction qvec with
  | nil => intro acc d; simp [vsmLoop]
  | cons tw rest ih =>
      intro acc d
      show d ∈ (vsmLoop N (vsmInner N tw.1 tw.2 acc (lookupD acc.2 tw.1 [])) rest).1.map Prod.fst ↔ _
      rw [ih]
      have hstate : (vsmInner N tw.1 tw.2 acc (lookupD acc.2 tw.1 [])).2 = acc.2 := by
        by_cases h : hasKey acc.2 tw.1
        · exact vsmInner_state N tw.1 tw.2 _ acc h
        · rw [lookupD_nil_of_not_hasKey h]; rfl
      rw [hstate, mem_keys_vsmInner]
      constructor
      · rintro ((hacc | hpost) | ⟨tw', htw', hl⟩)
        · exact Or.inl hacc
        · exact Or.inr ⟨tw, List.mem_cons_self _ _, hpost⟩
        · exact Or.inr ⟨tw', List.mem_cons_of_mem _ htw', hl⟩
      · rintro (hacc | ⟨tw', htw', hl⟩)
        · exact Or.inl (Or.inl hacc)
        · rcases List.mem_cons.mp htw' with rfl | htl
          · exact Or.inl (Or.inr hl)
          · exact Or.inr ⟨tw', htl, hl⟩

theorem mem_keys_counter (q : List String) (t : String) :
    t ∈ (counter q).map Prod.fst ↔ t ∈ q := by
  have main : ∀ (l : List String) (acc : List (String × Nat)) (t : String),
      t ∈ (l.foldl (fun acc x => bump acc x (fun n => n + 1) 0) acc).map Prod.fst ↔
        t ∈ acc.map Prod.fst ∨ t ∈ l := by
    intro l
    induction l with
    | nil => intro acc t; simp
    | cons x xs ih =>
        intro acc t
        show t ∈ (xs.foldl _ (bump acc x _ 0)).map Prod.fst ↔ _
        rw [ih, mem_keys_bump]
        simp only [List.mem_cons]
        tauto
  have h := main q [] t
  simpa [counter] using h

theorem mem_insertDesc (x z : Nat × ℝ) :
    ∀ l : List (Nat × ℝ), z ∈ insertDesc x l ↔ z = x ∨ z ∈ l := by
  intro l
  induction l with
  | nil => simp [insertDesc]
  | cons y ys ih =>
      unfold insertDesc
      by_cases h : y.2 ≤ x.2
      · rw [if_pos h]; simp
      · rw [if_neg h]
        simp only [List.mem_cons, ih]
        tauto

theorem insertDesc_perm (x : Nat × ℝ) :
    ∀ l : List (Nat × ℝ), (insertDesc x l).Perm (x :: l) := by
  intro l
  induction l with
  | nil => simp [insertDesc]
  | cons y ys ih =>
      unfold insertDesc
      by_cases h : y.2 ≤ x.2
      · rw [if_pos h]
      · rw [if_neg h]
        exact (List.Perm.cons y ih).trans (List.Perm.swap x y ys)

theorem sortDesc_perm :
    ∀ l : List (Nat × ℝ), (sortDesc l).Perm l := by
  intro l
  induction l with
  | nil => simp [sortDesc]
  | cons x xs ih =>
      exact (insertDesc_perm x (sortDesc xs)).trans (List.Perm.cons x ih)

theorem mem_sortDesc (l : List (Nat × ℝ)) (z : Nat × ℝ) :
    z ∈ sortDesc l ↔ z ∈ l :=
  (sortDesc_perm l).mem_iff

theorem insertDesc_sorted (x : Nat × ℝ) :
    ∀ l : List (Nat × ℝ), l.Pairwise scoreGe →
      (insertDesc x l).Pairwise scoreGe := by
  intro l
  induction l with
  | nil => intro _; simp [insertDesc, List.pairwise_singleton]
  | cons y ys ih =>
      intro hp
      rw [List.pairwise_cons] at hp
      obtain ⟨hy, hys⟩ := hp
      unfold insertDesc
      by_cases h : y.2 ≤ x.2
      · rw [if_pos h]
        refine List.pairwise_cons.mpr ⟨?_, List.pairwise_cons.mpr ⟨hy, hys⟩⟩
        intro z hz
        rcases List.mem_cons.mp hz with rfl | hzy
        · exact h
        · exact le_trans (hy z hzy) h
      · rw [if_neg h]
        refine List.pairwise_cons.mpr ⟨?_, ih hys⟩
        intro z hz
        rcases (mem_insertDesc x z ys).mp hz with rfl | hzy
        · exact le_of_not_le h
        · exact hy z hzy

theorem sortDesc_sorted (l : List (Nat × ℝ)) :
    (sortDesc l).Pairwise scoreGe := by
  induction l with
  | nil => simp [sortDesc]
  | cons x xs ih => exact insertDesc_sorted x _ ih

theorem insertDesc_tie (x : Nat × ℝ) :
    ∀ l : List (Nat × ℝ), l.Pairwise scoreGe → l.Pairwise tieLt →
      (∀ y ∈ l, x.1 < y.1) →
      (insertDesc x l).Pairwise tieLt := by
  intro l
  induction l with
  | nil => intro _ _ _; simp [insertDesc, List.pairwise_singleton]
  | cons y ys ih =>
      intro hs ht hlt
      rw [List.pairwise_cons] at hs ht
      obtain ⟨hsy, hsys⟩ := hs
      obtain ⟨hty, htys⟩ := ht
      unfold insertDesc
      by_cases h : y.2 ≤ x.2
      · rw [if_pos h]
        refine List.pairwise_cons.mpr ⟨?_, List.pairwise_cons.mpr ⟨hty, htys⟩⟩
        intro z hz _
        rcases List.mem_cons.mp hz with rfl | hzy
        · exact hlt z (List.mem_cons_self _ _)
        · exact hlt z (List.mem_cons_of_mem _ hzy)
      · rw [if_neg h]
        refine List.pairwise_cons.mpr
          ⟨?_, ih hsys htys (fun z hz => hlt z (List.mem_cons_of_mem _ hz))⟩
        intro z hz heq
        rcases (mem_insertDesc x z ys).mp hz with rfl | hzy
        · exact absurd (le_of_eq heq) h
        · exact hty z hzy heq

theorem sortDesc_tie :
    ∀ l : List (Nat × ℝ), l.Pairwise (fun a b => a.1 < b.1) →
      (sortDesc l).Pairwise tieLt := by
  intro l
  induction l with
  | nil => intro _; simp [sortDesc]
  | cons x xs ih =>
      intro hasc
      rw [List.pairwise_cons] at hasc
      obtain ⟨hx, hxs⟩ := hasc
      refine insertDesc_tie x _ (sortDesc_sorted xs) (ih hxs) ?_
      intro y hy
      exact hx y ((sortDesc_perm xs).mem_iff.mp hy)

theorem filter_insertDesc (x : Nat × ℝ) (s : ℝ) :
    ∀ l : List (Nat × ℝ),
      (insertDesc x l).filter (fun p => decide (p.2 = s)) =
        if x.2 = s then x :: l.filter (fun p => decide (p.2 = s))
        else l.filter (fun p => decide (p.2 = s)) := by
  intro l
  induction l with
  | nil =>
      by_cases hx : x.2 = s <;> simp [insertDesc, List.filter, hx]
  | cons y ys ih =>
      unfold insertDesc
      by_cases hle : y.2 ≤ x.2
      · rw [if_pos hle]
        by_cases hx : x.2 = s <;> simp [List.filter_cons, hx]
      · rw [if_neg hle]
        rw [List.filter_cons, List.filter_cons, ih]
        by_cases hx : x.2 = s
        · have hy : ¬y.2 = s := by
            intro hy
            exact hle (le_of_eq (hy.trans hx.symm))
          simp [hx, hy]
        · by_cases hy : y.2 = s <;> simp [hx, hy]

/-- The sort is stable: restricted to any single score value, the sorted
list is exactly the pre-sort list — equal-score entries keep the order in
which the ranker inserted them. -/
theorem sortDesc_stable (l : List (Nat × ℝ)) (s : ℝ) :
    (sortDesc l).filter (fun p => decide (p.2 = s)) =
      l.filter (fun p => decide (p.2 = s)) := by
  induction l with
  | nil => simp [sortDesc]
  | cons x xs ih =>
      show (insertDesc x (sortDesc xs)).filter _ = _
      rw [filter_insertDesc, List.filter_cons]
      by_cases hx : x.2 = s <;> simp [hx, ih]

theorem map_fst_sortDesc_mem (l : List (Nat × ℝ)) (d : Nat) :
    d ∈ (sortDesc l).map Prod.fst ↔ d ∈ l.map Prod.fst := by
  simp only [List.mem_map]
  constructor <;> rintro ⟨z, hz, rfl⟩
  · exact ⟨z, (sortDesc_perm l).mem_iff.mp hz, rfl⟩
  · exact ⟨z, (sortDesc_perm l).mem_iff.mpr hz, rfl⟩

theorem qvec_exists (N : Nat) (tdf : TDF) (q : List String) (d : Nat) :
    (∃ tw ∈ qvecOf N tdf q, d ∈ (lookupD tdf tw.1 []).map Prod.fst) ↔
      ∃ t ∈ q, d ∈ (lookupD tdf t []).map Prod.fst := by
  unfold qvecOf
  constructor
  · rintro ⟨tw, htw, hd⟩
    rw [List.mem_map] at htw
    obtain ⟨p, hp, rfl⟩ := htw
    exact ⟨p.1, (mem_keys_counter q p.1).mp (List.mem_map.mpr ⟨p, hp, rfl⟩), hd⟩
  · rintro ⟨t, ht, hd⟩
    have hmem : t ∈ (counter q).map Prod.fst := (mem_keys_counter q t).mpr ht
    rw [List.mem_map] at hmem
    obtain ⟨p, hp, rfl⟩ := hmem
    exact ⟨(p.1, (p.2 : ℝ) * idf N (dfOf tdf p.1)),
      List.mem_map.mpr ⟨p, hp, rfl⟩, hd⟩

theorem mem_vsm_search (N : Nat) (tdf : TDF) (dlen : Nat → ℝ)
    (q : List String) (d : Nat) :
    d ∈ (vsm_search N tdf dlen q).1.map Prod.fst ↔
      ∃ t ∈ q, d ∈ (lookupD tdf t []).map Prod.fst := by
  have h1 : (vsm_search N tdf dlen q).1 =
      sortDesc ((vsmLoop N ([], tdf) (qvecOf N tdf q)).1.map (fun ds =>
        (ds.1, if qnormOf (qvecOf N tdf q) ≠ 0 ∧ dlen ds.1 ≠ 0 then
          ds.2 / (qnormOf (qvecOf N tdf q) * dlen ds.1) else ds.2))) := rfl
  rw [h1, map_fst_sortDesc_mem]
  have h2 : ∀ (l : List (Nat × ℝ)) (f : Nat × ℝ → Nat × ℝ),
      (∀ z, (f z).1 = z.1) → (d ∈ (l.map f).map Prod.fst ↔ d ∈ l.map Prod.fst) := by
    intro l f hf
    simp only [List.mem_map]
    constructor
    · rintro ⟨z, ⟨y, hy, rfl⟩, rfl⟩
      exact ⟨y, hy, (hf y).symm ▸ rfl⟩
    · rintro ⟨y, hy, rfl⟩
      exact ⟨f y, ⟨y, hy, rfl⟩, hf y⟩
  rw [h2 (vsmLoop N ([], tdf) (qvecOf N tdf q)).1
      (fun ds => (ds.1, if qnormOf (qvecOf N tdf q) ≠ 0 ∧ dlen ds.1 ≠ 0 then
        ds.2 / (qnormOf (qvecOf N tdf q) * dlen ds.1) else ds.2))
      (fun z => rfl)]
  rw [mem_keys_vsmLoop]
  simp only [List.map_nil, List.not_mem_nil, false_or]
  exact qvec_exists N tdf q d

theorem vsm_search_nil (N : Nat) (tdf : TDF) (dlen : Nat → ℝ) :
    (vsm_search N tdf dlen []).1 = [] := rfl

theorem hitsUpTo_zero (ps : List (Nat × ℝ)) (rel : Finset Nat) :
    hitsUpTo ps rel 0 = 0 := by
  simp [hitsUpTo]

theorem hitsUpTo_cons (p : Nat × ℝ) (ps : List (Nat × ℝ)) (rel : Finset Nat)
    (m : Nat) :
    hitsUpTo (p :: ps) rel (m + 1) =
      (if p.1 ∈ rel then 1 else 0) + hitsUpTo ps rel m := by
  unfold hitsUpTo
  rw [List.take_succ_cons, List.filter_cons]
  by_cases hp : p.1 ∈ rel <;> simp [hp, Nat.add_comm]

theorem apLoop_snd (rel : Finset Nat) :
    ∀ (l : List (Nat × ℝ)) (i h : Nat) (t : ℝ),
      (apLoop rel l i h t).2 = t +
        ((List.enumFrom i l).map (fun ip =>
          if ip.2.1 ∈ rel then
            ((h : ℝ) + (hitsUpTo l rel (ip.1 + 1 - i) : ℝ)) / (ip.1 : ℝ)
          else 0)).sum := by
  intro l
  induction l with
  | nil => intro i h t; simp [apLoop]
  | cons p ps ih =>
      intro i h t
      rw [List.enumFrom_cons]
      by_cases hp : p.1 ∈ rel
      · rw [show apLoop rel (p :: ps) i h t =
            apLoop rel ps (i + 1) (h + 1) (t + ((h + 1 : Nat) : ℝ) / (i : ℝ)) from by
          simp [apLoop, hp]]
        rw [ih]
        simp only [List.map_cons, List.sum_cons, if_pos hp]
        have hhead : i + 1 - i = 0 + 1 := by omega
        rw [hhead, hitsUpTo_cons, if_pos hp, hitsUpTo_zero]
        have htail : ((List.enumFrom (i + 1) ps).map (fun ip =>
            if ip.2.1 ∈ rel then
              (((h + 1 : Nat) : ℝ) + (hitsUpTo ps rel (ip.1 + 1 - (i + 1)) : ℝ)) / (ip.1 : ℝ)
            else 0)) =
            ((List.enumFrom (i + 1) ps).map (fun ip =>
            if ip.2.1 ∈ rel then
              ((h : ℝ) + (hitsUpTo (p :: ps) rel (ip.1 + 1 - i) : ℝ)) / (ip.1 : ℝ)
            else 0)) := by
          apply List.map_congr_left
          intro ip hip
          have hge : i + 1 ≤ ip.1 := List.le_fst_of_mem_enumFrom hip
          by_cases hrel : ip.2.1 ∈ rel
          · rw [if_pos hrel, if_pos hrel]
            have harith : ip.1 + 1 - i = (ip.1 + 1 - (i + 1)) + 1 := by omega
            rw [harith, hitsUpTo_cons, if_pos hp]
            push_cast
            ring
          · rw [if_neg hrel, if_neg hrel]
        rw [htail]
        push_cast
        ring
      · rw [show apLoop rel (p :: ps) i h t = apLoop rel ps (i + 1) h t from by
          simp [apLoop, hp]]
        rw [ih]
        simp only [List.map_cons, List.sum_cons, if_neg hp]
        have htail : ((List.enumFrom (i + 1) ps).map (fun ip =>
            if ip.2.1 ∈ rel then
              ((h : ℝ) + (hitsUpTo ps rel (ip.1 + 1 - (i + 1)) : ℝ)) / (ip.1 : ℝ)
            else 0)) =
            ((List.enumFrom (i + 1) ps).map (fun ip =>
            if ip.2.1 ∈ rel then
              ((h : ℝ) + (hitsUpTo (p :: ps) rel (ip.1 + 1 - i) : ℝ)) / (ip.1 : ℝ)
            else 0)) := by
          apply List.map_congr_left
          intro ip hip
          have hge : i + 1 ≤ ip.1 := List.le_fst_of_mem_enumFrom hip
          by_cases hrel : ip.2.1 ∈ rel
          · rw [if_pos hrel, if_pos hrel]
            have harith : ip.1 + 1 - i = (ip.1 + 1 - (i + 1)) + 1 := by omega
            rw [harith, hitsUpTo_cons, if_neg hp]
            push_cast
            ring
          · rw [if_neg hrel, if_neg hrel]
        rw [htail]
        ring

theorem average_precision_eq_spec (ranked : List (Nat × ℝ)) (rel : Finset Nat) :
    average_precision ranked rel = apSpecFormula ranked rel := by
  unfold average_precision apSpecFormula
  by_cases h : rel = ∅
  · rw [if_pos h, if_pos h]
  · rw [if_neg h, if_neg h, apLoop_snd]
    rw [zero_add]
    have hmap : ∀ ip ∈ List.enumFrom 1 ranked,
        (if ip.2.1 ∈ rel then
          (((0 : Nat) : ℝ) + (hitsUpTo ranked rel (ip.1 + 1 - 1) : ℝ)) / (ip.1 : ℝ)
        else 0) =
        (if ip.2.1 ∈ rel then (hitsUpTo ranked rel ip.1 : ℝ) / (ip.1 : ℝ) else 0) := by
      intro ip _
      have h1 : ip.1 + 1 - 1 = ip.1 := by omega
      rw [h1]
      norm_num
    rw [List.map_congr_left hmap]
    ring

theorem lookupD_setTf (td : TDF) (t' t : String) (d f : Nat) :
    lookupD (setTf td t' d f) t [] =
      if t = t' then bump (lookupD td t' []) d (fun _ => f) 0
      else lookupD td t [] := by
  unfold setTf lookupD
  rw [alookup_bump]
  by_cases ht : t = t' <;> simp [ht, lookupD]

theorem innerDocsV_setTf (td : TDF) (t' t : String) (d f : Nat) :
    innerDocsV (setTf td t' d f) t =
      if t = t' ∧ d ∉ innerDocsV td t then innerDocsV td t ++ [d]
      else innerDocsV td t := by
  unfold innerDocsV
  rw [lookupD_setTf]
  by_cases ht : t = t'
  · subst ht
    rw [if_pos rfl, keys_bump]
    by_cases hd : d ∈ (lookupD td t []).map Prod.fst
    · rw [if_pos hd, if_neg (by simp [hd])]
    · rw [if_neg hd, if_pos ⟨rfl, hd⟩]
  · rw [if_neg ht, if_neg (by simp [ht])]

theorem innerDocsV_fold_mem (l : List (String × Nat)) :
    ∀ (td : TDF) (d : Nat) (t : String), d ∈ innerDocsV td t →
      innerDocsV (l.foldl (fun td p => setTf td p.1 d p.2) td) t =
        innerDocsV td t := by
  induction l with
  | nil => intro td d t _; rfl
  | cons p ps ih =>
      intro td d t hd
      simp only [List.foldl_cons]
      have h1 : innerDocsV (setTf td p.1 d p.2) t = innerDocsV td t := by
        rw [innerDocsV_setTf]; simp [hd]
      rw [ih _ d t (by rw [h1]; exact hd), h1]

theorem innerDocsV_fold (l : List (String × Nat)) :
    ∀ (td : TDF) (d : Nat) (t : String), d ∉ innerDocsV td t →
      innerDocsV (l.foldl (fun td p => setTf td p.1 d p.2) td) t =
        if t ∈ l.map Prod.fst then innerDocsV td t ++ [d]
        else innerDocsV td t := by
  induction l with
  | nil => intro td d t _; simp
  | cons p ps ih =>
      intro td d t hd
      simp only [List.foldl_cons, List.map_cons]
      by_cases ht : t = p.1
      · have h1 : innerDocsV (setTf td p.1 d p.2) t = innerDocsV td t ++ [d] := by
          rw [innerDocsV_setTf, if_pos ⟨ht, hd⟩]
        have h2 : d ∈ innerDocsV (setTf td p.1 d p.2) t := by rw [h1]; simp
        rw [innerDocsV_fold_mem ps _ d t h2, h1,
          if_pos (List.mem_cons.mpr (Or.inl ht))]
      · have h1 : innerDocsV (setTf td p.1 d p.2) t = innerDocsV td t := by
          rw [innerDocsV_setTf, if_neg (by simp [ht])]
        rw [ih _ d t (by rw [h1]; exact hd), h1]
        by_cases hmem : t ∈ List.map Prod.fst ps
        · rw [if_pos hmem, if_pos (List.mem_cons.mpr (Or.inr hmem))]
        · rw [if_neg hmem, if_neg (by
            intro hcons
            rcases List.mem_cons.mp hcons with heq | htl
            · exact ht heq
            · exact hmem htl)]

theorem innerDocsV_indexDocV (td : TDF) (d : Nat) (toks : List String)
    (t : String) (hd : d ∉ innerDocsV td t) :
    innerDocsV (indexDocV td d toks) t =
      if t ∈ toks then innerDocsV td t ++ [d] else innerDocsV td t := by
  unfold indexDocV
  rw [innerDocsV_fold (counter toks) td d t hd]
  by_cases hc : t ∈ toks
  · rw [if_pos ((mem_keys_counter toks t).mpr hc), if_pos hc]
  · rw [if_neg (fun hmm => hc ((mem_keys_counter toks t).mp hmm)), if_neg hc]

theorem IdsLeV_mono {td : TDF} {m n : Nat} (h : IdsLeV td m) (hmn : m ≤ n) :
    IdsLeV td n :=
  fun e he pe hpe => le_trans (h e he pe hpe) hmn

theorem mem_lookupD_entryV {td : TDF} {t : String} {pe : Nat × Nat}
    (h : pe ∈ lookupD td t []) : (t, lookupD td t []) ∈ td := by
  unfold lookupD at h ⊢
  cases hl : alookup td t with
  | none => rw [hl] at h; simp at h
  | some inner => simpa using alookup_mem _ _ _ hl

theorem IdsLeV_setTf {td : TDF} {n : Nat} (h : IdsLeV td n) {t : String}
    {d f : Nat} (hd : d ≤ n) : IdsLeV (setTf td t d f) n := by
  intro e he pe hpe
  refine mem_bump_of td t _ []
    (fun e => ∀ pe ∈ e.2, pe.1 ≤ n) h ?_ e he pe hpe
  intro pe2 hpe2
  refine mem_bump_of (lookupD td t []) d _ 0
    (fun pe => pe.1 ≤ n) ?_ hd pe2 hpe2
  intro x hx
  exact h _ (mem_lookupD_entryV hx) x hx

theorem IdsLeV_indexDocV (toks : List String) {td : TDF} {n d : Nat}
    (h : IdsLeV td n) (hd : d ≤ n) : IdsLeV (indexDocV td d toks) n := by
  unfold indexDocV
  generalize counter toks = l
  induction l generalizing td with
  | nil => exact h
  | cons p ps ih => exact ih (IdsLeV_setTf h hd)

theorem not_mem_innerDocsV_of_IdsLeV {td : TDF} {n : Nat} (h : IdsLeV td n)
    (t : String) {d : Nat} (hd : n < d) : d ∉ innerDocsV td t := by
  intro hmem
  unfold innerDocsV at hmem
  rw [List.mem_map] at hmem
  obtain ⟨pe, hpe, hfst⟩ := hmem
  have := h _ (mem_lookupD_entryV hpe) pe hpe
  omega

theorem innerDocsV_buildTdfAux (cs : List String) :
    ∀ (td : TDF) (n : Nat) (t : String), IdsLeV td n →
      innerDocsV (buildTdfAux td n cs) t =
        innerDocsV td t ++ docsContainingAux n cs t := by
  induction cs with
  | nil => intro td n t _; simp [buildTdfAux, docsContainingAux]
  | cons c cs ih =>
      intro td n t h
      unfold buildTdfAux docsContainingAux
      have hd : (n + 1) ∉ innerDocsV td t :=
        not_mem_innerDocsV_of_IdsLeV h t (by omega)
      have h1 := innerDocsV_indexDocV td (n + 1) (preprocess c) t hd
      have h2 : IdsLeV (indexDocV td (n + 1) (preprocess c)) (n + 1) :=
        IdsLeV_indexDocV _ (IdsLeV_mono h (by omega)) (le_refl _)
      rw [ih _ _ t h2, h1]
      by_cases hc : t ∈ preprocess c <;> simp [hc]

theorem innerDocsV_build (docs : List String) (t : String) :
    innerDocsV (buildTdf docs) t = docsContainingAux 0 docs t := by
  have h0 : IdsLeV [] 0 := fun e he => by cases he
  have h := innerDocsV_buildTdfAux docs [] 0 t h0
  simpa [buildTdf, innerDocsV, lookupD, alookup] using h

theorem dfOf_build (docs : List String) (t : String) :
    dfOf (buildTdf docs) t = (docsContainingAux 0 docs t).length := by
  have h := innerDocsV_build docs t
  unfold innerDocsV at h
  unfold dfOf
  rw [← h, List.length_map]

theorem docsContainingAux_length_le (cs : List String) :
    ∀ n t, (docsContainingAux n cs t).length ≤ cs.length := by
  induction cs with
  | nil => intro n t; simp [docsContainingAux]
  | cons c cs ih =>
      intro n t
      unfold docsContainingAux
      by_cases hc : t ∈ preprocess c
      · rw [if_pos hc]
        simpa using ih (n + 1) t
      · rw [if_neg hc]
        exact le_trans (ih (n + 1) t) (by simp)

theorem dfOf_build_le (docs : List String) (t : String) :
    dfOf (buildTdf docs) t ≤ docs.length := by
  rw [dfOf_build]
  exact docsContainingAux_length_le docs 0 t

theorem idf_pos {N df : Nat} (h : df ≤ N) : 0 < idf N df := by
  unfold idf
  have hdf : (df : ℝ) ≤ (N : ℝ) := Nat.cast_le.mpr h
  have h1 : (1 : ℝ) ≤ (1 + (N : ℝ)) / (1 + (df : ℝ)) := by
    rw [le_div_iff₀ (by positivity)]
    linarith
  have := Real.log_nonneg h1
  linarith

theorem vsm_search_sorted (N : Nat) (tdf : TDF) (dlen : Nat → ℝ)
    (q : List String) : ((vsm_search N tdf dlen q).1).Pairwise scoreGe := by
  unfold vsm_search
  exact sortDesc_sorted _

theorem lsi_search_sorted (st : LsiState) (q : List String) :
    (lsi_search st q).Pairwise scoreGe := by
  unfold lsi_search
  exact sortDesc_sorted _

theorem lsi_search_tie (st : LsiState) (q : List String)
    (h : st.docIndexMap.Pairwise (fun x y => x.1 < y.1)) :
    (lsi_search st q).Pairwise tieLt := by
  unfold lsi_search
  apply sortDesc_tie
  rw [List.pairwise_map]
  exact h

theorem sortDesc_pair_tie (d1 d2 : Nat) (s : ℝ) :
    sortDesc [(d1, s), (d2, s)] = [(d1, s), (d2, s)] := by
  simp [sortDesc, insertDesc]

theorem sortDesc_pair_desc (d1 d2 : Nat) (s1 s2 : ℝ) (h : s2 ≤ s1) :
    sortDesc [(d1, s1), (d2, s2)] = [(d1, s1), (d2, s2)] := by
  simp [sortDesc, insertDesc, if_pos h]

/-- On the two-document corpus `D1 = "x"`, `D2 = "y"` and the query
`"y x"`, the two cosine scores are exactly equal and the ranked list puts
doc 2 before doc 1: the tie is resolved by score-accumulation order (the
query mentions `y` first), not by ascending doc id. -/
theorem vsm_tie_eval : ∃ s : ℝ,
    (vsm_search (["x", "y"].length) (buildTdf ["x", "y"])
      (docLen (["x", "y"].length) (buildTdf ["x", "y"])) (preprocess "y x")).1 =
    [(2, s), (1, s)] := by
  have hq : preprocess "y x" = ["y", "x"] := by decide
  have htdf : buildTdf ["x", "y"] = [("x", [(1, 1)]), ("y", [(2, 1)])] := by decide
  rw [hq, htdf]
  simp only [List.length_cons, List.length_nil]
  simp [vsm_search, qvecOf, counter, dfOf, qnormOf, vsmLoop, vsmInner, ddSubT,
    lookupD, alookup, bump, docLen]
  exact ⟨_, sortDesc_pair_tie 2 1 _⟩

/-- On the corpus `D1 = "love love song"`, `D2 = "love is blind"`,
`D3 = "war and peace"` and the query `"love"`, the vector ranking is
`[(1, s1), (2, s2)]` with `0 < s2 < s1`; document 3 receives no score entry
at all. -/
theorem vsm_love_eval : ∃ s1 s2 : ℝ,
    (vsm_search (["love love song", "love is blind", "war and peace"].length)
      (buildTdf ["love love song", "love is blind", "war and peace"])
      (docLen (["love love song", "love is blind", "war and peace"].length)
        (buildTdf ["love love song", "love is blind", "war and peace"]))
      (preprocess "love")).1 = [(1, s1), (2, s2)] ∧ 0 < s2 ∧ s2 < s1 := by
  have hq : preprocess "love" = ["love"] := by decide
  have htdf : buildTdf ["love love song", "love is blind", "war and peace"] =
      [("love", [(1, 2), (2, 1)]), ("song", [(1, 1)]), ("blind", [(2, 1)]),
       ("war", [(3, 1)]), ("peace", [(3, 1)])] := by decide
  rw [hq, htdf]
  simp only [List.length_cons, List.length_nil]
  have hL : 0 < idf 3 2 := idf_pos (by norm_num)
  have hS : 0 < idf 3 1 := idf_pos (by norm_num)
  have h1 : Real.sqrt (idf 3 2 * idf 3 2) = idf 3 2 := Real.sqrt_mul_self hL.le
  have ha0 : 0 < Real.sqrt ((2 * idf 3 2) ^ 2 + idf 3 1 ^ 2) :=
    Real.sqrt_pos.mpr (by positivity)
  have hb0 : 0 < Real.sqrt (idf 3 2 ^ 2 + idf 3 1 ^ 2) :=
    Real.sqrt_pos.mpr (by positivity)
  have ha2 : Real.sqrt ((2 * idf 3 2) ^ 2 + idf 3 1 ^ 2) ^ 2 =
      (2 * idf 3 2) ^ 2 + idf 3 1 ^ 2 := Real.sq_sqrt (by positivity)
  have hb2 : Real.sqrt (idf 3 2 ^ 2 + idf 3 1 ^ 2) ^ 2 =
      idf 3 2 ^ 2 + idf 3 1 ^ 2 := Real.sq_sqrt (by positivity)
  simp [vsm_search, qvecOf, counter, dfOf, qnormOf, vsmLoop, vsmInner, ddSubT,
    lookupD, alookup, bump, docLen]
  rw [if_pos ⟨by rw [h1]; exact hL.ne', ha0.ne'⟩,
      if_pos ⟨by rw [h1]; exact hL.ne', hb0.ne'⟩]
  rw [h1]
  have hs2pos : 0 < idf 3 2 * idf 3 2 /
      (idf 3 2 * Real.sqrt (idf 3 2 ^ 2 + idf 3 1 ^ 2)) :=
    div_pos (mul_pos hL hL) (mul_pos hL hb0)
  have hlt : idf 3 2 * idf 3 2 /
      (idf 3 2 * Real.sqrt (idf 3 2 ^ 2 + idf 3 1 ^ 2)) <
      idf 3 2 * (2 * idf 3 2) /
        (idf 3 2 * Real.sqrt ((2 * idf 3 2) ^ 2 + idf 3 1 ^ 2)) := by
    rw [div_lt_div_iff₀ (mul_pos hL hb0) (mul_pos hL ha0)]
    have hab : Real.sqrt ((2 * idf 3 2) ^ 2 + idf 3 1 ^ 2) <
        2 * Real.sqrt (idf 3 2 ^ 2 + idf 3 1 ^ 2) := by
      nlinarith [ha0, hb0, ha2, hb2, hS, sq_nonneg (idf 3 1)]
    nlinarith [mul_pos (mul_pos hL hL) hL, hab, hL, ha0, hb0]
  exact ⟨_, _, sortDesc_pair_desc 1 2 _ _ hlt.le, hs2pos, hlt⟩

end VecIR

/-! ### Claims -/

/-- Claim C1, counterexample: on the corpus `D1 = "love love song"`,
`D2 = "love is blind"`, `D3 = "war and peace"`, the vector ranking for the
query `"love"` does not contain `D3` at all — the claim's assertion that
`D3` is present in the ranked output (with score exactly 0) is false;
`vsm_search` only ever scores documents sharing a term with the query. -/
theorem claim_C1_counterexample : 3 ∉ VecIR.loveVsm.map Prod.fst := by
  obtain ⟨s1, s2, heq, hpos, hlt⟩ := VecIR.vsm_love_eval
  have h2 : VecIR.loveVsm = [(1, s1), (2, s2)] := heq
  rw [h2]
  simp

/-- Claim C1, amended: a document none of whose postings match a query term
receives no score entry and is absent from the vector ranking (rather than
being present with score 0); on the example corpus the ranking for `"love"`
is exactly `[D1, D2]` with strictly positive, strictly descending scores,
and `D3` absent. -/
theorem claim_C1 :
    (∀ (N : Nat) (tdf : VecIR.TDF) (dlen : Nat → ℝ) (q : List String) (d : Nat),
      (∀ t ∈ q, d ∉ (lookupD tdf t []).map Prod.fst) →
      d ∉ ((VecIR.vsm_search N tdf dlen q).1).map Prod.fst) ∧
    (∃ s1 s2 : ℝ, VecIR.loveVsm = [(1, s1), (2, s2)] ∧ 0 < s2 ∧ s2 < s1) := by
  constructor
  · intro N tdf dlen q d h hmem
    obtain ⟨t, ht, hd⟩ := (VecIR.mem_vsm_search N tdf dlen q d).mp hmem
    exact h t ht hd
  · exact VecIR.vsm_love_eval

/-- Witness for claim C1's amended theorem at a concrete input. -/
theorem claim_C1_witness :
    (5 : Nat) ∉ ((VecIR.vsm_search 0 [] (fun _ => 0) ["z"]).1).map Prod.fst :=
  claim_C1.1 0 [] (fun _ => 0) ["z"] 5 (by simp [lookupD, alookup])

/-- Claim C2, counterexample: the latent query projection
`q_latent = (U_k.T @ qvec) / s_k` divides unconditionally; at a state whose
second retained singular value is zero, the corresponding component is
`+inf` (numpy float semantics), not zero. -/
theorem claim_C2_counterexample :
    VecIR.lsiZeroSV.sk 1 = 0 ∧
      VecIR.qLatentNp VecIR.lsiZeroSV (fun _ => 1) 1 = VecIR.NpFloat.posInf := by
  constructor
  · simp [VecIR.lsiZeroSV]
  · unfold VecIR.qLatentNp VecIR.npDiv VecIR.lsiZeroSV
    norm_num [Finset.sum_range_succ]

/-- Claim C2, amended: the projection divides elementwise by the retained
singular values with no zero guard; a component whose singular value is
nonzero equals the real quotient, while a component whose singular value is
zero is NaN or an infinity — never a finite value, in particular never the
claimed zero. -/
theorem claim_C2 :
    ∀ (st : VecIR.LsiState) (qv : Nat → ℝ) (j : Nat),
      (st.sk j ≠ 0 →
        VecIR.qLatentNp st qv j = VecIR.NpFloat.fin (VecIR.qLatentR st qv j)) ∧
      (st.sk j = 0 → ∀ r : ℝ, VecIR.qLatentNp st qv j ≠ VecIR.NpFloat.fin r) := by
  intro st qv j
  constructor
  · intro hb
    unfold VecIR.qLatentNp VecIR.npDiv VecIR.qLatentR
    rw [if_neg hb]
  · intro hb r
    unfold VecIR.qLatentNp VecIR.npDiv
    rw [if_pos hb]
    by_cases ha : (∑ i ∈ Finset.range st.vocabSize, st.Uk i j * qv i) = 0
    · rw [if_pos ha]; exact fun h => nomatch h
    · rw [if_neg ha]
      by_cases hpos : 0 < (∑ i ∈ Finset.range st.vocabSize, st.Uk i j * qv i)
      · rw [if_pos hpos]; exact fun h => nomatch h
      · rw [if_neg hpos]; exact fun h => nomatch h

/-- Witness for claim C2's amended theorem at a concrete input. -/
theorem claim_C2_witness :
    VecIR.qLatentNp VecIR.lsiTiny (fun _ => 1) 0 =
      VecIR.NpFloat.fin (VecIR.qLatentR VecIR.lsiTiny (fun _ => 1) 0) :=
  (claim_C2 VecIR.lsiTiny (fun _ => 1) 0).1 one_ne_zero

/-- Claim C3, counterexample: on the corpus `D1 = "x"`, `D2 = "y"` with
query `"y x"`, both documents receive exactly equal scores and the vector
ranking lists doc 2 before doc 1 — equal scores are not broken by ascending
doc id but by score-accumulation (query-term) order. -/
theorem claim_C3_counterexample : ∃ s : ℝ, VecIR.tieVsm = [(2, s), (1, s)] :=
  VecIR.vsm_tie_eval

/-- Claim C3, amended: both rankers sort by score descending (Python's
stable sort: restricted to any single score value, the sorted list equals
the pre-sort list).  The latent ranker fills its score dict in
`doc_index_map` order, so when that order is ascending by doc id (as the
build produces) and every retained singular value is nonzero (so the
real-arithmetic model is faithful), ties resolve by ascending doc id.  The
vector ranker's ties keep score-accumulation order instead, which need not
be ascending id. -/
theorem claim_C3 :
    (∀ (N : Nat) (tdf : VecIR.TDF) (dlen : Nat → ℝ) (q : List String),
      ((VecIR.vsm_search N tdf dlen q).1).Pairwise VecIR.scoreGe) ∧
    (∀ (l : List (Nat × ℝ)) (s : ℝ),
      (VecIR.sortDesc l).filter (fun p => decide (p.2 = s)) =
        l.filter (fun p => decide (p.2 = s))) ∧
    (∀ (st : VecIR.LsiState) (q : List String),
      st.docIndexMap.Pairwise (fun x y => x.1 < y.1) →
      (∀ j, j < st.kdim → st.sk j ≠ 0) →
      (VecIR.lsi_search st q).Pairwise VecIR.scoreGe ∧
        (VecIR.lsi_search st q).Pairwise VecIR.tieLt) :=
  ⟨VecIR.vsm_search_sorted, VecIR.sortDesc_stable,
   fun st q h _ => ⟨VecIR.lsi_search_sorted st q, VecIR.lsi_search_tie st q h⟩⟩

/-- Witness for claim C3's amended theorem at concrete inputs. -/
theorem claim_C3_witness :
    ((VecIR.vsm_search 0 [] (fun _ => 0) []).1).Pairwise VecIR.scoreGe ∧
    (VecIR.lsi_search VecIR.lsiTiny []).Pairwise VecIR.scoreGe ∧
    (VecIR.lsi_search VecIR.lsiTiny []).Pairwise VecIR.tieLt :=
  ⟨claim_C3.1 0 [] (fun _ => 0) [],
   (claim_C3.2.2 VecIR.lsiTiny [] (by decide) (fun j _ => one_ne_zero)).1,
   (claim_C3.2.2 VecIR.lsiTiny [] (by decide) (fun j _ => one_ne_zero)).2⟩

/-- Claim C4: every query-path operation returns the index state unchanged —
single-term lookup, boolean evaluation, phrase matching and vector ranking
never insert an entry into the term-to-postings mapping, and any sequence of
boolean queries leaves the index equal to its post-build state. -/
theorem claim_C4 :
    (∀ (idx : BoolIR.Index) (t : String), (BoolIR.search_term idx t).2 = idx) ∧
    (∀ (idx : BoolIR.Index) (allDocs : Finset Nat) (q : String),
      (BoolIR.boolean_search idx allDocs q).2 = idx) ∧
    (∀ (idx : BoolIR.Index) (p : String), (BoolIR.phrase_search idx p).2 = idx) ∧
    (∀ (N : Nat) (tdf : VecIR.TDF) (dlen : Nat → ℝ) (q : List String),
      (VecIR.vsm_search N tdf dlen q).2 = tdf) ∧
    (∀ (idx : BoolIR.Index) (allDocs : Finset Nat) (qs : List String),
      qs.foldl (fun i q => (BoolIR.boolean_search i allDocs q).2) idx = idx) := by
  refine ⟨BoolIR.search_term_state, BoolIR.boolean_search_state,
    BoolIR.phrase_search_state, VecIR.vsm_search_state, ?_⟩
  intro idx allDocs qs
  induction qs generalizing idx with
  | nil => rfl
  | cons q rest ih =>
      rw [List.foldl_cons, BoolIR.boolean_search_state, ih]

/-- Claim C5: the boolean evaluator supports exactly the four query shapes —
a single term (single-term set), `not t` (complement within the indexed
universe), `t1 and t2` (intersection), `t1 or t2` (union) — and every query
whose whitespace-split token list matches none of them, including the empty
string, other lengths, and three-token queries whose middle token is neither
`and` nor `or`, evaluates to the empty result set (the embedding is a total
function — no error is ever raised). -/
theorem claim_C5 :
    ∀ (idx : BoolIR.Index) (allDocs : Finset Nat) (q : String),
      (∀ t, pySplit (pyLower q) = [t] →
        (BoolIR.boolean_search idx allDocs q).1 = (BoolIR.search_term idx t).1) ∧
      (∀ t, pySplit (pyLower q) = ["not", t] →
        (BoolIR.boolean_search idx allDocs q).1 =
          BoolIR.set_difference allDocs (BoolIR.search_term idx t).1) ∧
      (∀ t1 t2, pySplit (pyLower q) = [t1, "and", t2] →
        (BoolIR.boolean_search idx allDocs q).1 =
          BoolIR.set_intersection (BoolIR.search_term idx t1).1
            (BoolIR.search_term idx t2).1) ∧
      (∀ t1 t2, pySplit (pyLower q) = [t1, "or", t2] →
        (BoolIR.boolean_search idx allDocs q).1 =
          BoolIR.set_union (BoolIR.search_term idx t1).1
            (BoolIR.search_term idx t2).1) ∧
      ((∀ t, ¬pySplit (pyLower q) = [t]) →
       (∀ t, ¬pySplit (pyLower q) = ["not", t]) →
       (∀ t1 t2, ¬pySplit (pyLower q) = [t1, "and", t2]) →
       (∀ t1 t2, ¬pySplit (pyLower q) = [t1, "or", t2]) →
       (BoolIR.boolean_search idx allDocs q).1 = ∅) :=
  fun idx allDocs q =>
    ⟨fun t h => BoolIR.boolean_search_single idx allDocs q t h,
     fun t h => BoolIR.boolean_search_not idx allDocs q t h,
     fun t1 t2 h => BoolIR.boolean_search_and idx allDocs q t1 t2 h,
     fun t1 t2 h => BoolIR.boolean_search_or idx allDocs q t1 t2 h,
     fun h1 h2 h3 h4 => BoolIR.boolean_search_default idx allDocs q h1 h2 h3 h4⟩

/-- Witness for claim C5: a single-term query and the empty query string. -/
theorem claim_C5_witness :
    (BoolIR.boolean_search wfIdx {1} "love").1 = (BoolIR.search_term wfIdx "love").1 ∧
    (BoolIR.boolean_search wfIdx {1} "").1 = ∅ :=
  ⟨(claim_C5 wfIdx {1} "love").1 "love" (by decide),
   (claim_C5 wfIdx {1} "").2.2.2.2
    (fun t h => by simp [pySplit, pyLower, splitWsAux] at h)
    (fun t h => by simp [pySplit, pyLower, splitWsAux] at h)
    (fun t1 t2 h => by simp [pySplit, pyLower, splitWsAux] at h)
    (fun t1 t2 h => by simp [pySplit, pyLower, splitWsAux] at h)⟩

/-- Claim C6: for every corpus and every term — including terms with
document frequency 0 — the smoothed inverse document frequency
`idf = ln((1+N)/(1+df)) + 1` computed over the built index is strictly
positive. -/
theorem claim_C6 :
    ∀ (docs : List String) (t : String),
      0 < VecIR.idf docs.length (VecIR.dfOf (VecIR.buildTdf docs) t) :=
  fun docs t => VecIR.idf_pos (VecIR.dfOf_build_le docs t)

/-- Claim C7: `average_precision` computes exactly the specification's
formula `(1/|relevant|) * Σ_{rank i where doc_i ∈ relevant} hits_up_to_i / i`
over the full ranked list with 1-based ranks; an empty relevant set yields
exactly 0; and on the ranked list `[D1, D2, D3]` with relevant set
`{D1, D3}` the value is `(1/2) * (1/1 + 2/3)`. -/
theorem claim_C7 :
    (∀ (ranked : List (Nat × ℝ)) (rel : Finset Nat),
      VecIR.average_precision ranked rel = VecIR.apSpecFormula ranked rel) ∧
    (∀ ranked : List (Nat × ℝ), VecIR.average_precision ranked ∅ = 0) ∧
    VecIR.average_precision [(1, 3), (2, 2), (3, 1)] {1, 3} =
      (1 / 2) * (1 / 1 + 2 / 3) := by
  refine ⟨VecIR.average_precision_eq_spec, ?_, ?_⟩
  · intro ranked
    unfold VecIR.average_precision
    rw [if_pos rfl]
  · norm_num [VecIR.average_precision, VecIR.apLoop]

/-- Claim C8: on a well-formed index (every posting has at least one
position, as the build guarantees), a phrase whose tokenization leaves a
single token returns exactly the single-term search result for that token,
and a phrase whose tokenization leaves no tokens returns the empty set. -/
theorem claim_C8 :
    ∀ (idx : BoolIR.Index) (p : String), BoolIR.WFIndex idx →
      (∀ w, preprocess p = [w] →
        (BoolIR.phrase_search idx p).1 = (BoolIR.search_term idx w).1) ∧
      (preprocess p = [] → (BoolIR.phrase_search idx p).1 = ∅) :=
  fun _ _ hwf =>
    ⟨fun _ hw => BoolIR.phrase_search_single hwf hw,
     fun hp => BoolIR.phrase_search_empty hp⟩

/-- Witness for claim C8 at a concrete index and phrases. -/
theorem claim_C8_witness :
    (BoolIR.phrase_search wfIdx "love").1 = (BoolIR.search_term wfIdx "love").1 ∧
    (BoolIR.phrase_search wfIdx "the").1 = ∅ :=
  ⟨(claim_C8 wfIdx "love" (by decide)).1 "love" (by decide),
   (claim_C8 wfIdx "the" (by decide)).2 (by decide)⟩

/-- Claim C9: for every corpus and term, the cardinality of the doc-id set
returned by single-term search on the built index equals the number of
documents whose token list contains the term — the term's document
frequency (0 for absent terms). -/
theorem claim_C9 :
    ∀ (docs : List String) (t : String),
      ((BoolIR.search_term (BoolIR.build_index docs) t).1).card =
        (docs.filter (fun c => decide (t ∈ preprocess c))).length :=
  BoolIR.search_term_card

/-- Claim C10: the vector ranking contains exactly the doc ids having a
posting for at least one query token (documents sharing no term with the
query are absent, not scored 0), and a query whose tokenization is empty —
an empty or all-stopword query — yields the empty ranked list. -/
theorem claim_C10 :
    (∀ (N : Nat) (tdf : VecIR.TDF) (dlen : Nat → ℝ) (q : List String) (d : Nat),
      d ∈ ((VecIR.vsm_search N tdf dlen q).1).map Prod.fst ↔
        ∃ t ∈ q, d ∈ (lookupD tdf t []).map Prod.fst) ∧
    (∀ (N : Nat) (tdf : VecIR.TDF) (dlen : Nat → ℝ) (s : String),
      preprocess s = [] → (VecIR.vsm_search N tdf dlen (preprocess s)).1 = []) := by
  refine ⟨VecIR.mem_vsm_search, ?_⟩
  intro N tdf dlen s h
  rw [h]
  exact VecIR.vsm_search_nil N tdf dlen

/-- Witness for claim C10 on an all-stopword query. -/
theorem claim_C10_witness :
    (VecIR.vsm_search 0 [] (fun _ => 0) (preprocess "the")).1 = [] :=
  claim_C10.2 0 [] (fun _ => 0) "the" (by decide)

end LyricsIR
